import Mathlib

/-!
Shallow embedding of the pitch-analyzer core: `pitch_detector.py`,
`audio_pitch_analyzer.py` and `audio_utils.py`.

Python floats are modelled as exact rationals wherever the code is algebraic,
and as real numbers where it is transcendental (`log2`).  NumPy reductions are
modelled on Lean lists; Lean's total division (`x / 0 = 0`) stands in for the
warning-suppressed IEEE behaviour of the source, which on the inputs treated
here returns the same values.  External library internals (librosa piptrack,
librosa yin, scipy find_peaks) are not part of the repository; where a claim
depends on them they are modelled from the specification and this is marked
in the doc comment of the definition.
-/

/-- `np.mean` on a list of rationals.  `np.mean` of an empty array is NaN with a
suppressed warning in the source; total division gives 0 here, and no modelled
path takes the mean of an empty list. -/
def listMean (xs : List ℚ) : ℚ := xs.sum / xs.length

/-- Population variance, i.e. the square of `np.std`.  The source compares
`np.std freqs < 10`; since both sides are nonnegative this holds exactly when
the population variance is `< 100`, which keeps the definition inside ℚ. -/
def popVariance (xs : List ℚ) : ℚ := listMean (xs.map (fun x => (x - listMean xs) ^ 2))

/-- `np.average xs` with weights `ws`: weighted average `Σ xᵢwᵢ / Σ wᵢ`. -/
def weightedAverage (xs ws : List ℚ) : ℚ := (List.zipWith (· * ·) xs ws).sum / ws.sum

/-- `np.argmax`: index of the first occurrence of the maximum value, 0 on the
empty list (where NumPy raises; never reached on the modelled paths). -/
def argmaxIdx : List ℚ → ℕ
  | [] => 0
  | [_] => 0
  | x :: y :: rest =>
      let j := argmaxIdx (y :: rest)
      if x < (y :: rest).getD j 0 then j + 1 else 0

/-- `np.max (np.abs y)`: peak absolute value.  NumPy raises on an empty array;
the data model (spec §3) guarantees `length ≥ 1` for estimator calls. -/
def peakAbs (y : List ℚ) : ℚ := (y.map (fun v => |v|)).foldr max 0

/-- `np.max` of a list; NumPy raises on the empty array, which the modelled
paths never reach (the head default only applies there). -/
def listMax (xs : List ℚ) : ℚ := xs.foldr max (xs.headD 0)

/-- `np.median`: middle element of the sorted list, or the mean of the two
middle elements for even length. -/
def listMedian (xs : List ℚ) : ℚ :=
  let s := xs.mergeSort (· ≤ ·)
  if xs.length % 2 = 1 then s.getD (xs.length / 2) 0
  else (s.getD (xs.length / 2 - 1) 0 + s.getD (xs.length / 2) 0) / 2

/-- `scipy.signal.find_peaks xs` with height `h`: indices of samples strictly
greater than both neighbours whose value is at least `h`.  Modelled from the
scipy contract (external library).  scipy additionally reports the midpoint of
a flat plateau bordered by strictly smaller samples; such a plateau needs a
strictly smaller bordering sample, so on the constant arrays reached by the
claims below both semantics report no peak. -/
def find_peaks (xs : List ℚ) (h : ℚ) : List ℕ :=
  (List.range xs.length).filter (fun i =>
    decide (0 < i) && decide (i + 1 < xs.length) &&
    decide (xs.getD (i - 1) 0 < xs.getD i 0) &&
    decide (xs.getD (i + 1) 0 < xs.getD i 0) &&
    decide (h ≤ xs.getD i 0))

/-- `np.correlate y y` in full mode: entry `k ∈ [0, 2L-2]` is
`Σₙ y[n] · y[n + k - (L-1)]`, terms with out-of-range index contributing 0. -/
def fullCorrelate (y : List ℚ) : List ℚ :=
  let L := y.length
  (List.range (2 * L - 1)).map (fun k =>
    ((List.range L).map (fun n =>
      if n + k < L - 1 then 0 else y.getD n 0 * y.getD (n + k - (L - 1)) 0)).sum)

/-- `PitchDetector.autocorrelation_pitch` (pitch_detector.py lines 95-134):
normalize by the peak absolute value, autocorrelate, keep non-negative lags,
search peaks in the lag band `[sr/2000, sr/80]` above 10% of the global
maximum, convert the tallest peak's lag to a frequency.  On an all-zero buffer
the source divides by a zero peak (suppressed-warning NaNs) and then finds no
peak; the total-division model returns the same 0. -/
def autocorrelation_pitch (sr : ℕ) (y : List ℚ) : ℚ :=
  let y1 := y.map (fun v => v / peakAbs y)
  let correlation := (fullCorrelate y1).drop ((2 * y1.length - 1) / 2)
  let min_period := sr / 2000
  let max_period := sr / 80
  if correlation.length ≤ max_period then 0
  else
    let window := (correlation.drop min_period).take (max_period - min_period)
    let peaks := find_peaks window ((1 / 10) * listMax correlation)
    if peaks = [] then 0
    else
      let peak_heights := peaks.map (fun i => window.getD i 0)
      let strongest := peaks.getD (argmaxIdx peak_heights) 0
      let period := strongest + min_period
      (sr : ℚ) / period

/-- The loop body of `PitchDetector.detect_fundamental_frequency`
(pitch_detector.py lines 48-55), taking one frame of the librosa `piptrack`
output as input: a list of `(pitch, magnitude)` bins.  The bin of maximum
magnitude is selected (`argmax` over magnitudes) and kept when its pitch is
positive. -/
def frameCandidate (bins : List (ℚ × ℚ)) : Option (ℚ × ℚ) :=
  let idx := argmaxIdx (bins.map Prod.snd)
  let chosen := bins.getD idx (0, 0)
  if 0 < chosen.1 then some chosen else none

/-- The aggregation of `PitchDetector.detect_fundamental_frequency`
(pitch_detector.py lines 44-67) over the per-frame candidates
(`frameCandidate` is the loop body): the magnitude-weighted average frequency
and the mean confidence, or `(0, 0)` when no frame qualifies. -/
def detect_fundamental_frequency (frames : List (List (ℚ × ℚ))) : ℚ × ℚ :=
  let cands := frames.filterMap frameCandidate
  if cands = [] then (0, 0)
  else (weightedAverage (cands.map Prod.fst) (cands.map Prod.snd),
        listMean (cands.map Prod.snd))

/-- The aggregation step of `PitchDetector.detect_pitch_yin`
(pitch_detector.py lines 88-93), taking the librosa `yin` per-frame
frequencies as input: keep the strictly positive ones and return their
median, or 0 when none remain. -/
def yin_aggregate (f0 : List ℚ) : ℚ :=
  let f0_filtered := f0.filter (fun v => decide (0 < v))
  if f0_filtered = [] then 0 else listMedian f0_filtered

/-- The three candidate results collected by
`PitchDetector.detect_pitch_multi_method` (pitch_detector.py lines 155-162):
the spectral result `m1 = (freq1, conf1)` kept when `freq1 > 0`, the yin
frequency `f2` with assigned weight 0.8, the autocorrelation frequency `f3`
with assigned weight 0.6. -/
def fuseCandidates (m1 : ℚ × ℚ) (f2 f3 : ℚ) : List (ℚ × ℚ) :=
  (if 0 < m1.1 then [m1] else []) ++
  (if 0 < f2 then [(f2, 4 / 5)] else []) ++
  (if 0 < f3 then [(f3, 3 / 5)] else [])

/-- The combining step of `PitchDetector.detect_pitch_multi_method`
(pitch_detector.py lines 136-185) on the three estimator results.  The
`popVariance _ < 100` test is the source's `np.std freqs < 10` with both
sides squared. -/
def detect_pitch_multi_method (m1 : ℚ × ℚ) (f2 f3 : ℚ) : ℚ × ℚ :=
  match fuseCandidates m1 f2 f3 with
  | [] => (0, 0)
  | [p] => p
  | p :: q :: rest =>
      let freqs := (p :: q :: rest).map Prod.fst
      let confs := (p :: q :: rest).map Prod.snd
      if popVariance freqs < 100 then
        (weightedAverage freqs confs, listMean confs)
      else
        (p :: q :: rest).getD (argmaxIdx confs) (0, 0)

/-- A pitch-class name with a sharp sign appended. -/
def sharped (base : String) : String := base ++ "#"

/-- The fixed 12-tone name table of `PitchDetector.frequency_to_note`:
C, C#, D, D#, E, F, F#, G, G#, A, A# and B. -/
def note_names : List String :=
  ["C", sharped ("C"), "D", sharped ("D"), "E",
   "F", sharped ("F"), "G", sharped ("G"), "A", sharped ("A"), "B"]

/-- The note-number to label step of `PitchDetector.frequency_to_note`
(pitch_detector.py lines 207-212): Python `//` and `%` are floor division and
nonnegative remainder, `Int.fdiv` and `Int.emod` here. -/
def noteLabel (note_number : ℤ) : String :=
  note_names.getD ((note_number.emod 12).toNat) ("") ++ toString ((note_number - 12).fdiv 12)

/-- `PitchDetector.frequency_to_note` (pitch_detector.py lines 187-212) over
exact reals; `round` is Mathlib's round-half-up, which agrees with Python's
round-half-even except at exact half-integer arguments, unattained by
`12 * logb 2 (f / 440) + 69` at any rational `f > 0`. -/
noncomputable def frequency_to_note (frequency : ℝ) : String :=
  if frequency ≤ 0 then "Unknown"
  else noteLabel (round (12 * Real.logb 2 (frequency / 440) + 69))

/-- Length of Python `range start stop step` for a positive `step`:
`max 0 ⌈(stop - start) / step⌉`, computed as truncating division of the
shifted numerator. -/
def pyRangeLen (start stop step : ℤ) : ℕ := (stop - start + step - 1).toNat / step.toNat

/-- Python `range start stop step` for a positive `step`. -/
def pyRange (start stop step : ℤ) : List ℤ :=
  (List.range (pyRangeLen start stop step)).map (fun k : ℕ => start + (k : ℤ) * step)

/-- The frame start offsets of the framing loop of
`AudioPitchAnalyzer.analyze_pitch_contour` (audio_pitch_analyzer.py line 406):
`for i in range(0, len(y) - frame_samples, hop_samples)` with buffer length
`L`, frame length `F` and hop length `H`. -/
def frameStarts (L F H : ℕ) : List ℤ := pyRange 0 ((L : ℤ) - F) H

/-- The set of offsets the specification describes for the framer: multiples
of the hop length `H` in the closed interval `[0, L - F]`. -/
def specFramerOffset (L F H : ℕ) (x : ℤ) : Prop :=
  0 ≤ x ∧ x ≤ (L : ℤ) - F ∧ (H : ℤ) ∣ x

/-- The interval computation of `AudioPitchAnalyzer.analyze_pitch_contour`
(audio_pitch_analyzer.py lines 426-433): for each index `i` of the detected
frequency list, 0 when `i = 0` or the frequency or the first frequency is
non-positive, else `12 * log2 (freq / frequencies[0])` guarded once more by
the Python conditional expression on `frequencies[0] > 0`. -/
noncomputable def contourIntervals (frequencies : List ℝ) : List ℝ :=
  (List.range frequencies.length).map (fun i =>
    if i = 0 ∨ frequencies.getD i 0 ≤ 0 ∨ frequencies.getD 0 0 ≤ 0 then 0
    else if 0 < frequencies.getD 0 0 then
      12 * Real.logb 2 (frequencies.getD i 0 / frequencies.getD 0 0)
    else 0)

/-- `librosa.frames_to_time i` at rate `sr` and hop length 512: the time of
frame `i` is `i * 512 / sr` seconds (external library, modelled from its
contract). -/
def frameTime (sr : ℚ) (i : ℕ) : ℚ := i * 512 / sr

/-- The voiced test of `AudioUtils.find_voiced_segments` (audio_utils.py
lines 209-216): frame `i` is voiced when its RMS strictly exceeds
`np.mean rms * 0.1`. -/
def isVoicedFrame (rms : List ℚ) (i : ℕ) : Bool :=
  decide (listMean rms * (1 / 10) < rms.getD i 0)

/-- The run-collecting loop of `AudioUtils.find_voiced_segments`
(audio_utils.py lines 222-239) over `(frame time, is_voiced)` pairs, with the
open-run start as state; after the loop a still-open run is closed at
`last_time` (`frame_times[-1]`).  A closed run is kept when it lasts at least
`min_duration`. -/
def segmentsLoop (min_duration last_time : ℚ) :
    List (ℚ × Bool) → Option ℚ → List (ℚ × ℚ)
  | [], none => []
  | [], some s => if min_duration ≤ last_time - s then [(s, last_time)] else []
  | (t, v) :: rest, none =>
      segmentsLoop min_duration last_time rest (if v then some t else none)
  | (t, v) :: rest, some s =>
      if v then segmentsLoop min_duration last_time rest (some s)
      else (if min_duration ≤ t - s then [(s, t)] else []) ++
        segmentsLoop min_duration last_time rest none

/-- `AudioUtils.find_voiced_segments` (audio_utils.py lines 197-241) given the
RMS energy array (computed by `librosa.feature.rms`, external): threshold at
`mean * 0.1`, scan transitions, keep runs of at least `min_duration`. -/
def find_voiced_segments (sr min_duration : ℚ) (rms : List ℚ) : List (ℚ × ℚ) :=
  let frames := (List.range rms.length).map (fun i => (frameTime sr i, isVoicedFrame rms i))
  segmentsLoop min_duration (frameTime sr (rms.length - 1)) frames none

/-- `AudioUtils.supported_formats` (audio_utils.py lines 243-251). -/
def supported_formats : List String :=
  [".wav", ".mp3", ".flac", ".m4a", ".aac", ".ogg", ".wma"]

/-- `AudioUtils.is_supported_format` (audio_utils.py lines 253-265); `ext`
stands for `os.path.splitext(file_path.lower())[1]`, the lower-cased
extension, since path splitting is the standard library's. -/
def is_supported_format (ext : String) : Bool := supported_formats.contains ext

/-- The entry of `AudioPitchAnalyzer.analyze_pitch_contour`
(audio_pitch_analyzer.py lines 380-392): format check, then the
`start_time >= end_time` precondition check, and only then audio loading
(`load offset duration`, the external decode service) and the numeric
analysis, abstracted as `rest`. -/
def analyze_pitch_contour_entry {α : Type} (ext : String) (start_time end_time : ℚ)
    (load : ℚ → ℚ → List ℚ) (rest : List ℚ → α) : Except String α :=
  if ¬ is_supported_format ext then Except.error ("unsupported audio format")
  else if end_time ≤ start_time then
    Except.error ("start time must be less than end time")
  else Except.ok (rest (load start_time (end_time - start_time)))

/-! ### Helper lemmas about the Python range model -/

lemma lt_pyRangeLen_iff (M : ℤ) (H : ℕ) (hH : 1 ≤ H) (k : ℕ) :
    k < pyRangeLen 0 M H ↔ (k : ℤ) * H < M := by
  unfold pyRangeLen
  have hHn : ((H : ℤ)).toNat = H := by omega
  rcases le_or_lt M 0 with hM | hM
  · have ht : (M - 0 + (H : ℤ) - 1).toNat < H := by omega
    have hz : (M - 0 + (H : ℤ) - 1).toNat / ((H : ℤ)).toNat = 0 := by
      rw [hHn]; exact Nat.div_eq_of_lt ht
    rw [hz]
    have hk0 : (0 : ℤ) ≤ (k : ℤ) * H := by positivity
    constructor
    · intro h; exact absurd h (Nat.not_lt_zero k)
    · intro h; exact absurd (lt_of_le_of_lt hk0 h) (by omega)
  · have ht : ((M - 0 + (H : ℤ) - 1).toNat : ℤ) = M + H - 1 := by omega
    rw [hHn, Nat.lt_iff_add_one_le, Nat.le_div_iff_mul_le (by omega : 0 < H)]
    rw [show ((k + 1) * H ≤ (M - 0 + (H : ℤ) - 1).toNat) ↔
        (((k + 1) * H : ℕ) : ℤ) ≤ ((M - 0 + (H : ℤ) - 1).toNat : ℤ) from
      (Int.ofNat_le ..).symm]
    rw [ht, Int.lt_iff_add_one_le]
    push_cast
    constructor <;> intro h <;> nlinarith [h]

lemma mem_frameStarts_iff (L F H : ℕ) (hH : 1 ≤ H) (x : ℤ) :
    x ∈ frameStarts L F H ↔ 0 ≤ x ∧ x < (L : ℤ) - F ∧ (H : ℤ) ∣ x := by
  have hmem : x ∈ frameStarts L F H ↔
      ∃ k : ℕ, k < pyRangeLen 0 ((L : ℤ) - F) H ∧ x = (k : ℤ) * H := by
    unfold frameStarts pyRange
    constructor
    · intro hx
      rcases List.mem_map.mp hx with ⟨k, hk, hxk⟩
      exact ⟨k, List.mem_range.mp hk, by rw [← hxk]; ring⟩
    · rintro ⟨k, hk, rfl⟩
      exact List.mem_map.mpr ⟨k, List.mem_range.mpr hk, by ring⟩
  rw [hmem]
  constructor
  · rintro ⟨k, hk, rfl⟩
    have hlt := (lt_pyRangeLen_iff ((L : ℤ) - F) H hH k).mp hk
    exact ⟨by positivity, hlt, ⟨k, by ring⟩⟩
  · rintro ⟨hx0, hxM, hdvd⟩
    rcases hdvd with ⟨c, hc⟩
    have hHz : (0 : ℤ) < H := by exact_mod_cast hH
    have hc0 : 0 ≤ c := by
      by_contra hneg
      push_neg at hneg
      have hlt : (H : ℤ) * c < (H : ℤ) * 0 := mul_lt_mul_of_pos_left hneg hHz
      rw [mul_zero] at hlt
      rw [hc] at hx0
      linarith
    refine ⟨c.toNat, ?_, ?_⟩
    · rw [lt_pyRangeLen_iff ((L : ℤ) - F) H hH, Int.toNat_of_nonneg hc0]
      rw [hc] at hxM
      calc c * (H : ℤ) = (H : ℤ) * c := by ring
        _ < (L : ℤ) - F := hxM
    · rw [Int.toNat_of_nonneg hc0, hc]; ring

/-! ### C2 -/

/-- C2 (amended): for every buffer length `L`, frame length `F ≥ 1` and hop
`H ≥ 1`, the framing loop's start offsets are exactly the multiples of `H` in
the half-open interval `[0, L - F)`, and there are zero frames when `L ≤ F`.
(The claim's closed interval `[0, L - F]` and its `L < F` bound fail: Python's
`range` excludes its stop value, see the counterexample.) -/
theorem c2_framer_offsets (L F H : ℕ) (_hF : 1 ≤ F) (hH : 1 ≤ H) :
    (∀ x : ℤ, x ∈ frameStarts L F H ↔ 0 ≤ x ∧ x < (L : ℤ) - F ∧ (H : ℤ) ∣ x) ∧
    (L ≤ F → frameStarts L F H = []) := by
  refine ⟨fun x => mem_frameStarts_iff L F H hH x, fun hLF => ?_⟩
  have hz : pyRangeLen 0 ((L : ℤ) - F) H = 0 := by
    unfold pyRangeLen
    have hHn : ((H : ℤ)).toNat = H := by omega
    rw [hHn]
    exact Nat.div_eq_of_lt (by omega)
  unfold frameStarts pyRange
  rw [hz]
  rfl

/-- C2 counterexample: at `L = 4`, `F = 2`, `H = 2`, the offset 2 is a
multiple of the hop in the closed interval `[0, L - F]`, yet the framing loop
does not produce it (its offsets are `[0]`): the loop covers `[0, L - F)`
only. -/
theorem c2_counterexample :
    specFramerOffset 4 2 2 2 ∧ ¬ (2 : ℤ) ∈ frameStarts 4 2 2 := by
  constructor
  · exact ⟨by norm_num, by norm_num, ⟨1, by norm_num⟩⟩
  · decide

/-- C2 witness: the offset characterization at `L = 5`, `F = 2`, `H = 2`, and
the empty framing at `L = F = 2`. -/
theorem c2_witness :
    ((2 : ℤ) ∈ frameStarts 5 2 2 ↔ (0 : ℤ) ≤ 2 ∧ (2 : ℤ) < (5 : ℤ) - 2 ∧ (2 : ℤ) ∣ 2) ∧
      frameStarts 2 2 2 = [] :=
  ⟨(c2_framer_offsets 5 2 2 (by norm_num) (by norm_num)).1 2,
   (c2_framer_offsets 2 2 2 (by norm_num) (by norm_num)).2 (by norm_num)⟩

/-! ### C9 -/

/-- C9: on a supported file path, a call with `start_time ≥ end_time` is
rejected by the precondition check before the audio is loaded or any numeric
analysis runs: the result is the error, independent of the loader and of the
analysis continuation, so no partial result exists. -/
theorem c9_invalid_range_rejected {α : Type} (ext : String) (start_time end_time : ℚ)
    (hfmt : is_supported_format ext = true) (h : end_time ≤ start_time)
    (load : ℚ → ℚ → List ℚ) (rest : List ℚ → α) :
    analyze_pitch_contour_entry ext start_time end_time load rest =
      Except.error ("start time must be less than end time") := by
  simp [analyze_pitch_contour_entry, hfmt, h]

/-- C9 witness: a `.wav` path with `start_time = end_time = 1`. -/
theorem c9_invalid_range_witness :
    is_supported_format (".wav") = true ∧ (1 : ℚ) ≤ 1 ∧
      analyze_pitch_contour_entry (".wav") 1 1 (fun _ _ => []) (fun l => l) =
        Except.error ("start time must be less than end time") :=
  ⟨by decide, le_refl 1,
   c9_invalid_range_rejected (".wav") 1 1 (by decide) (le_refl 1) _ _⟩

/-! ### C10 -/

/-- C10: a buffer of at most `⌊sr / 80⌋` samples (the maximum candidate
period) makes the autocorrelation estimator return 0 regardless of its
contents, because the non-negative-lag autocorrelation array has exactly the
buffer's length and the guard `max_period ≥ len(correlation)` fires.  The
buffer is nonempty per the data model (spec §3, length ≥ 1; NumPy raises on
an empty array). -/
theorem c10_short_buffer_zero (sr : ℕ) (y : List ℚ)
    (h1 : 1 ≤ y.length) (h2 : y.length ≤ sr / 80) :
    autocorrelation_pitch sr y = 0 := by
  have hy1 : (y.map (fun v => v / peakAbs y)).length = y.length :=
    List.length_map _ _
  have hfc : (fullCorrelate (y.map (fun v => v / peakAbs y))).length
      = 2 * y.length - 1 := by
    simp [fullCorrelate]
  simp only [autocorrelation_pitch]
  rw [List.length_drop, hfc, hy1]
  rw [if_pos (by omega)]

/-- C10 witness: a three-sample buffer at 22050 Hz (bound `⌊22050/80⌋ = 275`). -/
theorem c10_short_buffer_witness :
    1 ≤ ([1, 2, 3] : List ℚ).length ∧ ([1, 2, 3] : List ℚ).length ≤ 22050 / 80 ∧
      autocorrelation_pitch 22050 [1, 2, 3] = 0 :=
  ⟨by norm_num, by norm_num,
   c10_short_buffer_zero 22050 [1, 2, 3] (by norm_num) (by norm_num)⟩

/-! ### Helper lemmas about all-zero buffers and candidate lists -/

lemma getD_eq_zero_of_all_zero (y : List ℚ) (hz : ∀ v ∈ y, v = 0) (i : ℕ) :
    y.getD i 0 = 0 := by
  rcases lt_or_le i y.length with h | h
  · rw [List.getD_eq_getElem _ _ h]
    exact hz _ (List.getElem_mem h)
  · exact List.getD_eq_default _ _ h

lemma fullCorrelate_all_zero (y : List ℚ) (hz : ∀ v ∈ y, v = 0) :
    ∀ c ∈ fullCorrelate y, c = 0 := by
  intro c hc
  simp only [fullCorrelate, List.mem_map, List.mem_range] at hc
  rcases hc with ⟨k, _, rfl⟩
  apply List.sum_eq_zero
  intro t ht
  simp only [List.mem_map, List.mem_range] at ht
  rcases ht with ⟨n, _, rfl⟩
  split
  · rfl
  · rw [getD_eq_zero_of_all_zero y hz n, zero_mul]

lemma find_peaks_all_zero (xs : List ℚ) (hz : ∀ v ∈ xs, v = 0) (h : ℚ) :
    find_peaks xs h = [] := by
  unfold find_peaks
  rw [List.filter_eq_nil_iff]
  intro i _
  simp only [Bool.and_eq_true, decide_eq_true_eq]
  rintro ⟨⟨⟨⟨_, _⟩, h3⟩, _⟩, _⟩
  rw [getD_eq_zero_of_all_zero xs hz (i - 1), getD_eq_zero_of_all_zero xs hz i] at h3
  exact lt_irrefl 0 h3

lemma autocorrelation_pitch_all_zero (sr : ℕ) (y : List ℚ) (hz : ∀ v ∈ y, v = 0) :
    autocorrelation_pitch sr y = 0 := by
  have hz1 : ∀ v ∈ y.map (fun v => v / peakAbs y), v = 0 := by
    intro v hv
    rcases List.mem_map.mp hv with ⟨w, hw, rfl⟩
    rw [hz w hw, zero_div]
  simp only [autocorrelation_pitch]
  split
  · rfl
  · have hzw : ∀ c ∈ ((fullCorrelate (y.map (fun v => v / peakAbs y))).drop
        ((2 * (y.map (fun v => v / peakAbs y)).length - 1) / 2)).drop
          (sr / 2000) |>.take (sr / 80 - sr / 2000), c = 0 := by
      intro c hc
      exact fullCorrelate_all_zero _ hz1 c
        (List.mem_of_mem_drop (List.mem_of_mem_drop (List.mem_of_mem_take hc)))
    rw [find_peaks_all_zero _ hzw]
    simp

lemma frameCandidate_none (bins : List (ℚ × ℚ)) (hb : ∀ b ∈ bins, b.1 ≤ 0) :
    frameCandidate bins = none := by
  simp only [frameCandidate]
  rcases lt_or_le (argmaxIdx (bins.map Prod.snd)) bins.length with h | h
  · have hmem : bins.getD (argmaxIdx (bins.map Prod.snd)) (0, 0) ∈ bins := by
      rw [List.getD_eq_getElem _ _ h]
      exact List.getElem_mem h
    rw [if_neg (not_lt.mpr (hb _ hmem))]
  · rw [List.getD_eq_default _ _ h]
    rw [if_neg (lt_irrefl 0)]

lemma frameCandidate_some (bins : List (ℚ × ℚ)) (c : ℚ × ℚ)
    (hc : frameCandidate bins = some c) : c ∈ bins ∧ 0 < c.1 := by
  simp only [frameCandidate] at hc
  rcases lt_or_le (argmaxIdx (bins.map Prod.snd)) bins.length with h | h
  · split at hc
    · cases hc
      constructor
      · rw [List.getD_eq_getElem _ _ h]
        exact List.getElem_mem h
      · assumption
    · cases hc
  · rw [List.getD_eq_default _ _ h] at hc
    rw [if_neg (lt_irrefl 0)] at hc
    cases hc

lemma listMean_nonneg (xs : List ℚ) (h : ∀ x ∈ xs, 0 ≤ x) : 0 ≤ listMean xs := by
  unfold listMean
  exact div_nonneg (List.sum_nonneg h) (by positivity)

lemma listMean_le_one (xs : List ℚ) (hne : xs ≠ []) (h : ∀ x ∈ xs, x ≤ 1) :
    listMean xs ≤ 1 := by
  unfold listMean
  have hlen : (0 : ℚ) < xs.length := by
    have := List.length_pos.mpr hne
    exact_mod_cast this
  rw [div_le_one hlen]
  have hs := List.sum_le_card_nsmul xs 1 h
  simpa using hs

/-! ### C3 -/

/-- C3: on a zero-energy (all-zero, nonempty per the data model) buffer each
estimator reports no pitch instead of failing: the autocorrelation estimator
returns 0 (its normalization divides by the zero peak — the skip described by
the spec is immaterial since the zero buffer then yields no autocorrelation
peak either way), the spectral estimator returns `(0, 0)` when the zero
spectrum offers no positive pitch candidate (spec-modelled piptrack frontend),
and the yin aggregation returns 0 when no frame reports a positive frequency
(spec-modelled yin frontend). -/
theorem c3_zero_energy_graceful (sr : ℕ) (y : List ℚ)
    (frames : List (List (ℚ × ℚ))) (f0 : List ℚ)
    (_hlen : 1 ≤ y.length) (hy : ∀ v ∈ y, v = 0)
    (hframes : ∀ bins ∈ frames, ∀ b ∈ bins, b.1 ≤ 0)
    (hf0 : ∀ v ∈ f0, v ≤ 0) :
    autocorrelation_pitch sr y = 0 ∧
      detect_fundamental_frequency frames = (0, 0) ∧ yin_aggregate f0 = 0 := by
  refine ⟨autocorrelation_pitch_all_zero sr y hy, ?_, ?_⟩
  · have hnil : frames.filterMap frameCandidate = [] :=
      List.filterMap_eq_nil_iff.mpr (fun bins hbins => frameCandidate_none bins (hframes bins hbins))
    simp [detect_fundamental_frequency, hnil]
  · have hnil : f0.filter (fun v => decide (0 < v)) = [] := by
      rw [List.filter_eq_nil_iff]
      intro v hv
      simpa using not_lt.mpr (hf0 v hv)
    simp [yin_aggregate, hnil]

/-- C3 witness: a three-sample silent buffer at 22050 Hz, a one-frame zero
spectrum and a one-frame zero yin track. -/
theorem c3_zero_energy_witness :
    autocorrelation_pitch 22050 [0, 0, 0] = 0 ∧
      detect_fundamental_frequency [[(0, 0)]] = (0, 0) ∧ yin_aggregate [0] = 0 :=
  c3_zero_energy_graceful 22050 [0, 0, 0] [[(0, 0)]] [0]
    (by norm_num) (by intro v hv; simpa using hv)
    (by intro bins hbins b hb; simp at hbins; subst hbins; simp at hb; simp [hb])
    (by intro v hv; simp at hv; simp [hv])

/-! ### C4 -/

/-- C4: the spectral-peak estimator's confidence lies in `[0, 1]`: each
per-frame confidence is a magnitude normalized against the frame's magnitude
scale (spec-modelled piptrack frontend, stated as the hypothesis that every
magnitude lies in `[0, 1]`), and the returned confidence is the arithmetic
mean of the selected per-frame confidences, or 0 when no frame qualifies. -/
theorem c4_confidence_in_unit_interval (frames : List (List (ℚ × ℚ)))
    (hmag : ∀ bins ∈ frames, ∀ b ∈ bins, 0 ≤ b.2 ∧ b.2 ≤ 1) :
    0 ≤ (detect_fundamental_frequency frames).2 ∧
      (detect_fundamental_frequency frames).2 ≤ 1 := by
  simp only [detect_fundamental_frequency]
  split
  · norm_num
  · rename_i hne
    have hconf : ∀ x ∈ (frames.filterMap frameCandidate).map Prod.snd, 0 ≤ x ∧ x ≤ 1 := by
      intro x hx
      rcases List.mem_map.mp hx with ⟨c, hc, rfl⟩
      rcases List.mem_filterMap.mp hc with ⟨bins, hbins, hsome⟩
      rcases frameCandidate_some bins c hsome with ⟨hcmem, _⟩
      exact hmag bins hbins c hcmem
    have hmapne : (frames.filterMap frameCandidate).map Prod.snd ≠ [] := by
      simpa using hne
    exact ⟨listMean_nonneg _ (fun x hx => (hconf x hx).1),
           listMean_le_one _ hmapne (fun x hx => (hconf x hx).2)⟩

/-- C4 witness: a single frame with a single bin of magnitude 1/2. -/
theorem c4_confidence_witness :
    0 ≤ (detect_fundamental_frequency [[(100, 1/2)]]).2 ∧
      (detect_fundamental_frequency [[(100, 1/2)]]).2 ≤ 1 :=
  c4_confidence_in_unit_interval [[(100, 1/2)]]
    (by intro bins hbins b hb; simp at hbins; subst hbins; simp at hb; subst hb; norm_num)

/-! ### Helper lemmas for the fusion policy -/

lemma argmaxIdx_spec : ∀ (xs : List ℚ), xs ≠ [] →
    argmaxIdx xs < xs.length ∧
      ∀ j, j < xs.length → xs.getD j 0 ≤ xs.getD (argmaxIdx xs) 0
  | [], h => absurd rfl h
  | [x], _ => by
      constructor
      · simp [argmaxIdx]
      · intro j hj
        have hj0 : j = 0 := by simp at hj; omega
        subst hj0
        simp [argmaxIdx]
  | x :: y :: rest, _ => by
      have ih := argmaxIdx_spec (y :: rest) (by simp)
      by_cases hx : x < (y :: rest).getD (argmaxIdx (y :: rest)) 0
      · have ha : argmaxIdx (x :: y :: rest) = argmaxIdx (y :: rest) + 1 := by
          simp only [argmaxIdx]
          rw [if_pos hx]
        refine ⟨by rw [ha]; simpa using Nat.succ_lt_succ ih.1, ?_⟩
        intro j hj
        rw [ha]
        cases j with
        | zero =>
          simp only [List.getD_cons_zero, List.getD_cons_succ]
          exact le_of_lt hx
        | succ i =>
          simp only [List.getD_cons_succ]
          exact ih.2 i (by simpa using hj)
      · have ha : argmaxIdx (x :: y :: rest) = 0 := by
          simp only [argmaxIdx]
          rw [if_neg hx]
        refine ⟨by rw [ha]; simp, ?_⟩
        intro j hj
        rw [ha]
        cases j with
        | zero => simp
        | succ i =>
          simp only [List.getD_cons_succ, List.getD_cons_zero]
          exact le_trans (ih.2 i (by simpa using hj)) (not_lt.mp hx)

lemma getD_map_snd (l : List (ℚ × ℚ)) (j : ℕ) (hj : j < l.length) :
    (l.map Prod.snd).getD j 0 = (l.getD j (0, 0)).2 := by
  rw [List.getD_eq_getElem _ _ (by simpa using hj), List.getD_eq_getElem _ _ hj]
  simp

/-- The candidate set as the specification describes the fusion input: the
three `(frequency, confidence-or-weight)` pairs with every entry of
non-positive frequency dropped. -/
def fusionKept (m1 : ℚ × ℚ) (f2 f3 : ℚ) : List (ℚ × ℚ) :=
  ([m1, (f2, 4 / 5), (f3, 3 / 5)] : List (ℚ × ℚ)).filter (fun p => decide (0 < p.1))

lemma fusionKept_eq (m1 : ℚ × ℚ) (f2 f3 : ℚ) :
    fusionKept m1 f2 f3 = fuseCandidates m1 f2 f3 := by
  unfold fusionKept fuseCandidates
  by_cases h1 : 0 < m1.1 <;> by_cases h2 : 0 < f2 <;> by_cases h3 : 0 < f3 <;>
    simp [List.filter, h1, h2, h3]

lemma zipWith_mul_fst_snd (l : List (ℚ × ℚ)) :
    List.zipWith (· * ·) (l.map Prod.fst) (l.map Prod.snd) = l.map (fun p => p.1 * p.2) := by
  induction l with
  | nil => rfl
  | cons p t ih => simp [ih]

lemma sqrt_lt_ten_iff (v : ℚ) : Real.sqrt (v : ℝ) < 10 ↔ v < 100 := by
  rw [Real.sqrt_lt' (by norm_num : (0 : ℝ) < 10)]
  norm_num
  exact_mod_cast Iff.rfl

/-! ### C1 -/

/-- C1: the fusion policy of `detect_pitch_multi_method`.  With `fusionKept`
the entries of positive frequency among the spectral result (native
confidence), the difference-function result (weight 0.8) and the
autocorrelation result (weight 0.6): an empty remainder gives `(0, 0)`; a
single remainder is returned unchanged; with two or more remaining and the
population standard deviation of the frequencies below 10 Hz the result is
the confidence-weighted average frequency with the arithmetic mean
confidence; otherwise the result is a remaining pair of maximal
confidence. -/
theorem c1_fusion_policy (m1 : ℚ × ℚ) (f2 f3 : ℚ) :
    (fusionKept m1 f2 f3 = [] → detect_pitch_multi_method m1 f2 f3 = (0, 0)) ∧
    (∀ p, fusionKept m1 f2 f3 = [p] → detect_pitch_multi_method m1 f2 f3 = p) ∧
    (2 ≤ (fusionKept m1 f2 f3).length →
      (Real.sqrt ((popVariance ((fusionKept m1 f2 f3).map Prod.fst) : ℚ) : ℝ) < 10 →
        detect_pitch_multi_method m1 f2 f3 =
          (((fusionKept m1 f2 f3).map (fun p => p.1 * p.2)).sum /
              ((fusionKept m1 f2 f3).map Prod.snd).sum,
            ((fusionKept m1 f2 f3).map Prod.snd).sum / (fusionKept m1 f2 f3).length)) ∧
      (¬ Real.sqrt ((popVariance ((fusionKept m1 f2 f3).map Prod.fst) : ℚ) : ℝ) < 10 →
        detect_pitch_multi_method m1 f2 f3 ∈ fusionKept m1 f2 f3 ∧
          ∀ q ∈ fusionKept m1 f2 f3, q.2 ≤ (detect_pitch_multi_method m1 f2 f3).2)) := by
  rw [fusionKept_eq]
  rcases hc : fuseCandidates m1 f2 f3 with _ | ⟨p, _ | ⟨q, rest⟩⟩
  · refine ⟨?_, ?_, ?_⟩
    · intro _
      simp only [detect_pitch_multi_method, hc]
    · intro p hp
      exact absurd hp (by simp)
    · intro h2
      simp at h2
  · refine ⟨?_, ?_, ?_⟩
    · intro h
      exact absurd h (by simp)
    · intro p' hp'
      injection hp' with h1 _
      subst h1
      simp only [detect_pitch_multi_method, hc]
    · intro h2
      simp at h2
  · have hlist : detect_pitch_multi_method m1 f2 f3 =
        (if popVariance ((p :: q :: rest).map Prod.fst) < 100 then
          (weightedAverage ((p :: q :: rest).map Prod.fst) ((p :: q :: rest).map Prod.snd),
            listMean ((p :: q :: rest).map Prod.snd))
        else (p :: q :: rest).getD (argmaxIdx ((p :: q :: rest).map Prod.snd)) (0, 0)) := by
      simp only [detect_pitch_multi_method, hc]
    refine ⟨?_, ?_, ?_⟩
    · intro h
      exact absurd h (by simp)
    · intro p' hp'
      exact absurd hp' (by simp)
    refine fun _ => ⟨?_, ?_⟩
    · intro hsqrt
      rw [sqrt_lt_ten_iff] at hsqrt
      rw [hlist, if_pos hsqrt]
      unfold weightedAverage listMean
      rw [zipWith_mul_fst_snd]
      rw [List.length_map]
    · intro hsqrt
      rw [sqrt_lt_ten_iff] at hsqrt
      rw [hlist, if_neg hsqrt]
      have hne : ((p :: q :: rest).map Prod.snd) ≠ [] := by simp
      have hspec := argmaxIdx_spec ((p :: q :: rest).map Prod.snd) hne
      have hidx : argmaxIdx ((p :: q :: rest).map Prod.snd) < (p :: q :: rest).length := by
        have := hspec.1
        rwa [List.length_map] at this
      constructor
      · rw [List.getD_eq_getElem _ _ hidx]
        exact List.getElem_mem hidx
      · intro r hr
        rcases List.mem_iff_getElem.mp hr with ⟨j, hj, rfl⟩
        have hle := hspec.2 j (by simpa using hj)
        rw [getD_map_snd _ _ hj, getD_map_snd _ _ hidx] at hle
        rw [List.getD_eq_getElem _ _ hj] at hle
        exact hle

/-- C1 witness: spectral `(100, 1/2)`, difference-function 102,
autocorrelation 200 — the frequencies disagree (standard deviation ≥ 10), so
the fused result is a kept pair of maximal confidence. -/
theorem c1_fusion_witness :
    detect_pitch_multi_method (100, 1/2) 102 200 ∈ fusionKept (100, 1/2) 102 200 ∧
      ∀ q ∈ fusionKept (100, 1/2) 102 200,
        q.2 ≤ (detect_pitch_multi_method (100, 1/2) 102 200).2 := by
  have h2 : 2 ≤ (fusionKept (100, 1/2) 102 200).length := by
    norm_num [fusionKept, List.filter]
  have hs : ¬ Real.sqrt ((popVariance ((fusionKept (100, 1/2) 102 200).map Prod.fst) : ℚ) : ℝ) < 10 := by
    rw [sqrt_lt_ten_iff]
    norm_num [fusionKept, List.filter, popVariance, listMean]
  exact ((c1_fusion_policy (100, 1/2) 102 200).2.2 h2).2 hs

/-! ### C6 -/

/-- C6: when all three methods report the same positive frequency `f` (the
spectral confidence lying in `[0, 1]`), fusion returns `f` with a confidence
at least the minimum of the three input confidences/weights. -/
theorem c6_unanimous_fusion (f c1 : ℚ) (hf : 0 < f) (hc0 : 0 ≤ c1) (_hc1 : c1 ≤ 1) :
    (detect_pitch_multi_method (f, c1) f f).1 = f ∧
      min c1 (min (4 / 5) (3 / 5)) ≤ (detect_pitch_multi_method (f, c1) f f).2 := by
  have hcand : fuseCandidates (f, c1) f f = [(f, c1), (f, 4 / 5), (f, 3 / 5)] := by
    simp [fuseCandidates, hf]
  have hmean : listMean [f, f, f] = f := by
    unfold listMean
    simp
    linarith
  have hvar : popVariance [f, f, f] = 0 := by
    unfold popVariance
    rw [hmean]
    simp [listMean]
  have hwa : weightedAverage [f, f, f] [c1, 4 / 5, 3 / 5] = f := by
    unfold weightedAverage
    simp only [List.zipWith_cons_cons, List.zipWith_nil_left, List.sum_cons, List.sum_nil]
    rw [div_eq_iff (by intro hzero; linarith)]
    ring
  have hmc : listMean [c1, 4 / 5, 3 / 5] = (c1 + (4 / 5 + (3 / 5 + 0))) / 3 := by
    unfold listMean
    norm_num
  simp only [detect_pitch_multi_method, hcand, List.map_cons, List.map_nil]
  rw [if_pos (by rw [hvar]; norm_num)]
  rw [hwa, hmc]
  refine ⟨rfl, ?_⟩
  rw [show min (4 / 5 : ℚ) (3 / 5) = 3 / 5 from min_eq_right (by norm_num)]
  rcases le_total c1 (3 / 5) with h | h
  · rw [min_eq_left h]
    linarith
  · rw [min_eq_right h]
    linarith

/-- C6 witness: unanimous 440 Hz with spectral confidence 1/2. -/
theorem c6_unanimous_witness :
    (detect_pitch_multi_method (440, 1/2) 440 440).1 = 440 ∧
      min (1/2) (min (4 / 5) (3 / 5)) ≤ (detect_pitch_multi_method (440, 1/2) 440 440).2 :=
  c6_unanimous_fusion 440 (1/2) (by norm_num) (by norm_num) (by norm_num)

/-! ### C7 -/

/-- C7: in the contour analysis the interval recorded for frame `i` equals
`12 * log2 (f_i / f_0)` exactly when `i > 0` and both `f_i` and the
reference `f_0` are positive, and 0 otherwise; in particular a silent frame 0
forces every interval to 0. -/
theorem c7_contour_intervals (freqs : List ℝ) (i : ℕ) (h : i < freqs.length) :
    ((contourIntervals freqs).getD i 0 =
      if 0 < i ∧ 0 < freqs.getD 0 0 ∧ 0 < freqs.getD i 0 then
        12 * Real.logb 2 (freqs.getD i 0 / freqs.getD 0 0)
      else 0) ∧
    (freqs.getD 0 0 ≤ 0 → ∀ x ∈ contourIntervals freqs, x = 0) := by
  constructor
  · have hg : (contourIntervals freqs).getD i 0 =
        (if i = 0 ∨ freqs.getD i 0 ≤ 0 ∨ freqs.getD 0 0 ≤ 0 then (0 : ℝ)
         else if 0 < freqs.getD 0 0 then
           12 * Real.logb 2 (freqs.getD i 0 / freqs.getD 0 0)
         else 0) := by
      unfold contourIntervals
      rw [List.getD_eq_getElem _ _ (by simpa using h)]
      simp
    rw [hg]
    rcases Nat.eq_zero_or_pos i with hi | hi
    · subst hi
      rw [if_pos (Or.inl rfl), if_neg (by rintro ⟨h1, _, _⟩; exact absurd h1 (lt_irrefl 0))]
    · rcases le_or_lt (freqs.getD i 0) 0 with hfi | hfi
      · rw [if_pos (Or.inr (Or.inl hfi)), if_neg (by rintro ⟨_, _, h3⟩; linarith)]
      · rcases le_or_lt (freqs.getD 0 0) 0 with hf0 | hf0
        · rw [if_pos (Or.inr (Or.inr hf0)), if_neg (by rintro ⟨_, h2, _⟩; linarith)]
        · rw [if_neg (by simp only [not_or, not_le]; exact ⟨by omega, hfi, hf0⟩),
            if_pos hf0, if_pos ⟨hi, hf0, hfi⟩]
  · intro hf0 x hx
    unfold contourIntervals at hx
    rcases List.mem_map.mp hx with ⟨j, _, rfl⟩
    rw [if_pos (Or.inr (Or.inr hf0))]

/-- C7 witness: frequencies `[220, 440]` give the interval 12 semitones (one
octave) at frame 1. -/
theorem c7_contour_witness : (contourIntervals [220, 440]).getD 1 0 = 12 := by
  have h := (c7_contour_intervals [220, 440] 1 (by norm_num)).1
  rw [h, if_pos]
  · have h20 : ([220, 440] : List ℝ).getD 1 0 / ([220, 440] : List ℝ).getD 0 0 = 2 := by
      simp only [List.getD_cons_succ, List.getD_cons_zero]
      norm_num
    rw [h20, Real.logb_self_eq_one (by norm_num)]
    norm_num
  · refine ⟨by norm_num, ?_, ?_⟩ <;>
      simp only [List.getD_cons_succ, List.getD_cons_zero] <;> norm_num

/-! ### C5 -/

/-- C5: `frequency_to_note` returns the sentinel for non-positive
frequencies; for positive frequencies it rounds the semitone offset from A4
to `round (12 * log2 (f / 440)) + 69` (the code rounds after adding 69, which
commutes with rounding an integer summand) and builds the label from the
floor-division octave and the 12-tone table; in particular 440 Hz is A4,
523.25 Hz is C5 and 0 is Unknown. -/
theorem c5_frequency_to_note :
    (∀ f : ℝ, f ≤ 0 → frequency_to_note f = "Unknown") ∧
    (∀ f : ℝ, 0 < f →
      frequency_to_note f = noteLabel (round (12 * Real.logb 2 (f / 440)) + 69)) ∧
    frequency_to_note 440 = "A4" ∧ frequency_to_note 523.25 = "C5" ∧
    frequency_to_note 0 = "Unknown" := by
  have hlog2 : (0 : ℝ) < Real.log 2 := Real.log_pos (by norm_num)
  refine ⟨?_, ?_, ?_, ?_, ?_⟩
  · intro f hf
    unfold frequency_to_note
    rw [if_pos hf]
  · intro f hf
    unfold frequency_to_note
    rw [if_neg (not_le.mpr hf)]
    congr 1
    rw [show (69 : ℝ) = ((69 : ℤ) : ℝ) from by norm_num]
    exact round_add_int _ 69
  · unfold frequency_to_note
    rw [if_neg (by norm_num)]
    rw [show (440 : ℝ) / 440 = 1 from by norm_num, Real.logb_one]
    rw [show (12 : ℝ) * 0 + 69 = ((69 : ℤ) : ℝ) from by norm_num, round_intCast]
    decide
  · have hlow : (5 : ℝ) / 24 ≤ Real.logb 2 (2093 / 1760) := by
      have hpow : (2 : ℝ) ^ (5 : ℕ) ≤ (2093 / 1760 : ℝ) ^ (24 : ℕ) := by norm_num
      have hlogle := (Real.log_le_log_iff (by positivity) (by positivity)).mpr hpow
      rw [Real.log_pow, Real.log_pow] at hlogle
      unfold Real.logb
      rw [le_div_iff₀ hlog2]
      push_cast at hlogle
      linarith
    have hhigh : Real.logb 2 (2093 / 1760) < (7 : ℝ) / 24 := by
      have hpow : (2093 / 1760 : ℝ) ^ (24 : ℕ) < (2 : ℝ) ^ (7 : ℕ) := by norm_num
      have hlt := Real.log_lt_log (by positivity) hpow
      rw [Real.log_pow, Real.log_pow] at hlt
      unfold Real.logb
      rw [div_lt_iff₀ hlog2]
      push_cast at hlt
      linarith
    have hkey : round (12 * Real.logb 2 ((523.25 : ℝ) / 440) + 69) = 72 := by
      rw [show (523.25 : ℝ) / 440 = 2093 / 1760 from by norm_num]
      rw [round_eq]
      refine Int.floor_eq_iff.mpr ⟨?_, ?_⟩
      · push_cast
        linarith
      · push_cast
        linarith
    unfold frequency_to_note
    rw [if_neg (by norm_num), hkey]
    decide
  · unfold frequency_to_note
    rw [if_pos le_rfl]

/-- C5 witness: the positive-frequency formula applied at 880 Hz yields A5,
and the non-positive sentinel at -1. -/
theorem c5_frequency_witness :
    frequency_to_note 880 = "A5" ∧ frequency_to_note (-1) = "Unknown" := by
  constructor
  · rw [c5_frequency_to_note.2.1 880 (by norm_num)]
    rw [show (880 : ℝ) / 440 = 2 from by norm_num,
      Real.logb_self_eq_one (by norm_num)]
    rw [show (12 : ℝ) * 1 = ((12 : ℤ) : ℝ) from by norm_num, round_intCast]
    decide
  · exact c5_frequency_to_note.1 (-1) (by norm_num)

/-! ### C8 -/

lemma segmentsLoop_spec (md lastT : ℚ) (_hmd : 0 ≤ md) :
    ∀ (l : List (ℚ × Bool)) (st : Option ℚ) (c : ℚ),
      (∀ p ∈ l, c ≤ p.1) →
      List.Pairwise (fun p q : ℚ × Bool => p.1 ≤ q.1) l →
      (∀ s, st = some s → c ≤ s) →
      (∀ p ∈ segmentsLoop md lastT l st, md ≤ p.2 - p.1) ∧
      List.Pairwise (fun p q : ℚ × ℚ => p.2 ≤ q.1) (segmentsLoop md lastT l st) ∧
      (∀ p ∈ segmentsLoop md lastT l st, c ≤ p.1) := by
  intro l
  induction l with
  | nil =>
    intro st c hc hsort hst
    cases st with
    | none => simp [segmentsLoop]
    | some s =>
      simp only [segmentsLoop]
      split
      · rename_i hks
        refine ⟨?_, by simp, ?_⟩
        · intro p hp
          simp only [List.mem_singleton] at hp
          subst hp
          simpa using hks
        · intro p hp
          simp only [List.mem_singleton] at hp
          subst hp
          exact hst s rfl
      · simp
  | cons hd rest ih =>
    rcases hd with ⟨t, v⟩
    intro st c hc hsort hst
    have hthead : c ≤ t := hc (t, v) (List.mem_cons_self _ _)
    have hcrest : ∀ p ∈ rest, c ≤ p.1 := fun p hp => hc p (List.mem_cons_of_mem _ hp)
    have htrest : ∀ p ∈ rest, t ≤ p.1 := (List.pairwise_cons.mp hsort).1
    have hsortrest := (List.pairwise_cons.mp hsort).2
    cases st with
    | none =>
      simp only [segmentsLoop]
      by_cases hv : v = true
      · rw [if_pos hv]
        exact ih (some t) c hcrest hsortrest (fun s hs => by cases hs; exact hthead)
      · rw [if_neg hv]
        exact ih none c hcrest hsortrest (fun s hs => by cases hs)
    | some s =>
      simp only [segmentsLoop]
      by_cases hv : v = true
      · rw [if_pos hv]
        exact ih (some s) c hcrest hsortrest (fun s' hs' => by cases hs'; exact hst s rfl)
      · rw [if_neg hv]
        have hrest := ih none t htrest hsortrest (fun s' hs' => by cases hs')
        split
        · rename_i hkeep
          rw [List.singleton_append]
          refine ⟨?_, ?_, ?_⟩
          · intro p hp
            rcases List.mem_cons.mp hp with hp | hp
            · subst hp
              simpa using hkeep
            · exact hrest.1 p hp
          · rw [List.pairwise_cons]
            exact ⟨fun b hb => hrest.2.2 b hb, hrest.2.1⟩
          · intro p hp
            rcases List.mem_cons.mp hp with hp | hp
            · subst hp
              exact hst s rfl
            · exact le_trans hthead (hrest.2.2 p hp)
        · rw [List.nil_append]
          exact ⟨hrest.1, hrest.2.1, fun p hp => le_trans hthead (hrest.2.2 p hp)⟩

/-- C8: every voiced-segment list is ordered by start time, its segments are
pairwise non-overlapping (each ends no later than every later segment
starts), every returned segment lasts at least the minimum duration, and a
frame is classified voiced exactly when its RMS strictly exceeds
`mean(RMS) * 0.1`. -/
theorem c8_voiced_segments (sr md : ℚ) (rms : List ℚ) (hsr : 0 < sr) (hmd : 0 ≤ md) :
    (∀ p ∈ find_voiced_segments sr md rms, md ≤ p.2 - p.1) ∧
    List.Pairwise (fun p q : ℚ × ℚ => p.2 ≤ q.1) (find_voiced_segments sr md rms) ∧
    List.Pairwise (fun p q : ℚ × ℚ => p.1 ≤ q.1) (find_voiced_segments sr md rms) ∧
    (∀ i, isVoicedFrame rms i = true ↔ rms.sum / rms.length * (1 / 10) < rms.getD i 0) := by
  have hg : ∀ p ∈ (List.range rms.length).map
      (fun i => (frameTime sr i, isVoicedFrame rms i)), (0 : ℚ) ≤ p.1 := by
    intro p hp
    rcases List.mem_map.mp hp with ⟨i, _, rfl⟩
    unfold frameTime
    positivity
  have hsorted : List.Pairwise (fun p q : ℚ × Bool => p.1 ≤ q.1)
      ((List.range rms.length).map (fun i => (frameTime sr i, isVoicedFrame rms i))) := by
    rw [List.pairwise_map]
    refine List.Pairwise.imp ?_ (List.pairwise_lt_range _)
    intro i j hij
    unfold frameTime
    rw [div_le_div_iff₀ hsr hsr]
    have hij' : (i : ℚ) ≤ j := by exact_mod_cast hij.le
    nlinarith [mul_nonneg (sub_nonneg.mpr hij') hsr.le]
  have hmain := segmentsLoop_spec md (frameTime sr (rms.length - 1)) hmd
    ((List.range rms.length).map (fun i => (frameTime sr i, isVoicedFrame rms i)))
    none 0 hg hsorted (fun s hs => by cases hs)
  unfold find_voiced_segments
  refine ⟨hmain.1, hmain.2.1, ?_, ?_⟩
  · refine List.Pairwise.imp_of_mem ?_ hmain.2.1
    intro a b ha hb hab
    have haa : a.1 ≤ a.2 := by
      have := hmain.1 a ha
      linarith
    exact le_trans haa hab
  · intro i
    simp [isVoicedFrame, listMean]

/-- C8 witness: RMS `[0, 3, 3, 0]` at 512 Hz with minimum duration 1 s. -/
theorem c8_voiced_witness :
    (0 : ℚ) < 512 ∧ (0 : ℚ) ≤ 1 ∧
      (∀ p ∈ find_voiced_segments 512 1 [0, 3, 3, 0], (1 : ℚ) ≤ p.2 - p.1) ∧
      List.Pairwise (fun p q : ℚ × ℚ => p.2 ≤ q.1) (find_voiced_segments 512 1 [0, 3, 3, 0]) :=
  ⟨by norm_num, by norm_num,
   (c8_voiced_segments 512 1 [0, 3, 3, 0] (by norm_num) (by norm_num)).1,
   (c8_voiced_segments 512 1 [0, 3, 3, 0] (by norm_num) (by norm_num)).2.1⟩

